import Mathlib

/-!
Verification of the memory record store of `mcp-server-memory`
(`src/lib/memory-storage.ts`), shallowly embedded over `List Char`.

A category file is a flat text file; blocks are separated by the
double-newline record separator; a block may start with a `#` tag line.
The store keeps one `<category>.txt` file per category under a global or
a local root directory.  JavaScript string operations (`split`, `trim`,
`includes`, `startsWith`, `replace`, regex `\s+` split) are embedded as
structurally recursive functions on `List Char`.
-/

namespace MemSpec

/-- The whitespace class used by JS `trim()` and the regex `\s`,
restricted to the ASCII whitespace characters that can occur here. -/
def isWs (c : Char) : Bool :=
  c = ' ' || c = '\t' || c = '\n' || c = '\r' || c = '\x0b' || c = '\x0c'

/-- Helper for the splitters: prepend a character to the first chunk. -/
def consHead (c : Char) : List (List Char) → List (List Char)
  | [] => [[c]]
  | b :: bs => (c :: b) :: bs

/-- JS `content.split('\n\n')`: leftmost, non-overlapping matches of the
two-newline record separator. -/
def splitNN : List Char → List (List Char)
  | [] => [[]]
  | [c] => [[c]]
  | c :: c' :: rest =>
    if c = '\n' ∧ c' = '\n' then [] :: splitNN rest
    else consHead c (splitNN (c' :: rest))

/-- JS `entry.split('\n')`. -/
def splitNl : List Char → List (List Char)
  | [] => [[]]
  | c :: rest =>
    if c = '\n' then [] :: splitNl rest else consHead c (splitNl rest)

/-- Split at every whitespace character (empty chunks between adjacent
whitespace characters), the skeleton of the regex `\s+` split. -/
def wsSplit : List Char → List (List Char)
  | [] => [[]]
  | c :: rest => if isWs c then [] :: wsSplit rest else consHead c (wsSplit rest)

/-- JS `Array.prototype.join(sep)`. -/
def joinWith (sep : List Char) : List (List Char) → List Char
  | [] => []
  | [b] => b
  | b :: bs => b ++ sep ++ joinWith sep bs

/-- JS `s.trimStart()` over the embedded whitespace class. -/
def trimStartL (l : List Char) : List Char := l.dropWhile isWs

/-- JS `s.trim()`. -/
def trimL (l : List Char) : List Char :=
  ((trimStartL l).reverse.dropWhile isWs).reverse

/-- Truthiness test `!s.trim()`: the string is entirely whitespace. -/
def isBlankL (l : List Char) : Bool := l.all isWs

/-- Boolean list-is-pre test with decidable character equality. -/
def isPre : List Char → List Char → Bool
  | [], _ => true
  | _ :: _, [] => false
  | a :: as, b :: bs => a = b && isPre as bs

/-- JS `hay.includes(needle)`: `needle` occurs contiguously in `hay`. -/
def containsSub : List Char → List Char → Bool
  | [], needle => needle.isEmpty
  | hay@(_ :: t), needle => isPre needle hay || containsSub t needle

/-- JS `line.startsWith('#')`. -/
def startsWithHash : List Char → Bool
  | [] => false
  | c :: _ => c = '#'

/-- JS `file.endsWith('.txt')`. -/
def endsWithTxt (l : List Char) : Bool :=
  isPre ['t', 'x', 't', '.'] l.reverse

/-- JS `file.replace('.txt', '')`: remove the leftmost occurrence of
`.txt` (the whole string is returned unchanged when there is none). -/
def replaceFirstTxt : List Char → List Char
  | [] => []
  | '.' :: 't' :: 'x' :: 't' :: rest => rest
  | c :: rest => c :: replaceFirstTxt rest

/-- JS `firstLine.substring(1).trim().split(/\s+/)`, applied after
`trim`: the regex split of an already-trimmed string, which is `[""]`
for the empty string and the maximal whitespace-free runs otherwise. -/
def jsSplitWsPlus (l : List Char) : List (List Char) :=
  if l = [] then [[]] else (wsSplit l).filter (fun w => !w.isEmpty)

/-- The parsed form of a category file: insertion-ordered association
list from tag-key to the list of entry bodies (`Record<string, string[]>`). -/
abbrev Rec := List (List Char × List (List Char))

/-- JS property read `m[k]`. -/
def jsLookup (m : Rec) (k : List Char) : Option (List (List Char)) :=
  (m.find? (fun p => decide (p.1 = k))).map (·.2)

/-- JS property assignment `m[k] = v`: overwrite in place when the key
exists, insert at the end otherwise. -/
def jsSet (m : Rec) (k : List Char) (v : List (List Char)) : Rec :=
  match m with
  | [] => [(k, v)]
  | (k', v') :: rest =>
    if k' = k then (k', v) :: rest else (k', v') :: jsSet rest k v

/-- JS `if (!m[k]) m[k] = []; m[k].push(...v)`: append to the list in
place when the key exists, insert at the end otherwise. -/
def jsPush (m : Rec) (k : List Char) (v : List (List Char)) : Rec :=
  match m with
  | [] => [(k, v)]
  | (k', v') :: rest =>
    if k' = k then (k', v' ++ v) :: rest else (k', v') :: jsPush rest k v

/-- The literal key used for untagged blocks. -/
def untaggedKey : List Char := "untagged".toList

/-- One iteration of `retrieve`'s parsing loop over a block of the file:
skip whitespace-only blocks; a `#` first line assigns the block's
remaining non-blank lines under the space-joined tag list; otherwise all
non-blank lines are pushed under `"untagged"`. -/
def parseBlock (m : Rec) (entry : List Char) : Rec :=
  if isBlankL entry then m
  else
    let lines := splitNl entry
    let firstLine := lines.headD []
    if startsWithHash firstLine then
      let tags := jsSplitWsPlus (trimL (firstLine.drop 1))
      let tagKey := joinWith [' '] tags
      jsSet m tagKey ((lines.drop 1).filter (fun l => !isBlankL l))
    else
      jsPush m untaggedKey (lines.filter (fun l => !isBlankL l))

/-- Decode of a category file's raw content, as performed by `retrieve`. -/
def decode (content : List Char) : Rec :=
  (splitNN content).foldl parseBlock []

/-- The text fragment appended by `remember`: an optional tag line
followed by the body and the record separator. -/
def encodeAppend (tags : List (List Char)) (data : List Char) : List Char :=
  (if tags.length > 0
    then '#' :: ' ' :: joinWith [' '] tags ++ ['\n']
    else []) ++ data ++ ['\n', '\n']

/-- The content rewrite of `removeSpecificMemory`: split on the record
separator, drop the blocks containing the substring, rejoin. -/
def filterOut (content s : List Char) : List Char :=
  joinWith ['\n', '\n'] ((splitNN content).filter (fun b => !containsSub b s))

/-- No occurrence of the two-newline record separator. -/
def noSep : List Char → Bool
  | [] => true
  | [_] => true
  | c :: c' :: rest =>
    if c = '\n' ∧ c' = '\n' then false else noSep (c' :: rest)

/-- The chunk ends in a newline character. -/
def endsNl (b : List Char) : Bool := b.getLast? = some '\n'

/-- Only the final chunk of the list may end in a newline (the shape
`splitNN` always produces). -/
def lastOkB : List (List Char) → Bool
  | [] => true
  | b :: bs => bs.isEmpty || (!endsNl b && lastOkB bs)

/-- A tag that round-trips through the tag line: non-empty and free of
whitespace characters. -/
def validTag (t : List Char) : Bool := !t.isEmpty && t.all (fun c => !isWs c)

/-- The first line of a block (used by the parser's branch test). -/
def blockFirstLine (b : List Char) : List Char := (splitNl b).headD []

/-- The parser treats the block as tagged: its first line starts with `#`. -/
def blockIsTagged (b : List Char) : Bool := startsWithHash (blockFirstLine b)

/-- The tag-key the parser derives from a tagged block's tag line. -/
def blockTagKey (b : List Char) : List Char :=
  joinWith [' '] (jsSplitWsPlus (trimL ((blockFirstLine b).drop 1)))

/-- The entry list the parser derives from a tagged block: the non-blank
lines after the tag line. -/
def blockEntries (b : List Char) : List (List Char) :=
  ((splitNl b).drop 1).filter (fun l => !isBlankL l)

/-- Whether parsing the block can change the mapping at key `k`: a
non-blank tagged block affects exactly its tag-key, a non-blank untagged
block affects exactly the key `"untagged"`. -/
def blockAffects (b k : List Char) : Bool :=
  !isBlankL b &&
    (if blockIsTagged b then decide (blockTagKey b = k)
      else decide (k = untaggedKey))

/-! ## The filesystem state and the store operations -/

/-- A root directory: insertion-ordered list of (file name, content).
Real directories have pairwise distinct file names; the operations below
never create a duplicate name. -/
abbrev Dir := List (List Char × List Char)

/-- The filesystem state seen by one `MemoryStorage` instance: the two
configured root directories, each possibly absent.  The global and local
storage locations are distinct paths, hence modelled as separate fields. -/
structure FS where
  globalRoot : Option Dir
  localRoot : Option Dir
deriving DecidableEq, Repr

/-- The root directory selected by the `isGlobal` flag. -/
def FS.root (fs : FS) (isGlobal : Bool) : Option Dir :=
  if isGlobal then fs.globalRoot else fs.localRoot

/-- Replace the root selected by `isGlobal`. -/
def FS.withRoot (fs : FS) (isGlobal : Bool) (d : Option Dir) : FS :=
  if isGlobal then { fs with globalRoot := d } else { fs with localRoot := d }

/-- Content of a named file in a directory, `none` when absent. -/
def dirGet? (d : Dir) (n : List Char) : Option (List Char) :=
  (d.find? (fun p => decide (p.1 = n))).map (·.2)

/-- `fs.promises.appendFile`: append to the named file, creating it when
absent. -/
def dirAppendFile (d : Dir) (n c : List Char) : Dir :=
  match d with
  | [] => [(n, c)]
  | (n', c') :: rest =>
    if n' = n then (n', c' ++ c) :: rest else (n', c') :: dirAppendFile rest n c

/-- `fs.promises.writeFile`: overwrite the named file, creating it when
absent. -/
def dirWriteFile (d : Dir) (n c : List Char) : Dir :=
  match d with
  | [] => [(n, c)]
  | (n', c') :: rest =>
    if n' = n then (n', c) :: rest else (n', c') :: dirWriteFile rest n c

/-- `fs.promises.unlink`: remove the named file (file names are unique
in a real directory, so removing every match is removing the file). -/
def dirErase (d : Dir) (n : List Char) : Dir :=
  d.filter (fun p => !decide (p.1 = n))

/-- `getMemoryFilePath`'s file-name part: `` `${category}.txt` ``. -/
def memoryFileName (category : List Char) : List Char :=
  category ++ ".txt".toList

/-- Content of the category file addressed by `getMemoryFilePath`,
`none` when the file (or the whole root) is absent. -/
def fileContent? (fs : FS) (category : List Char) (isGlobal : Bool) :
    Option (List Char) :=
  match fs.root isGlobal with
  | none => none
  | some d => dirGet? d (memoryFileName category)

/-- `fs.existsSync` on the area root. -/
def rootExists (fs : FS) (isGlobal : Bool) : Bool :=
  (fs.root isGlobal).isSome

/-- `remember`: append the encoded fragment to the category file.
Appending into an absent root directory fails (`ENOENT`), hence `none`. -/
def remember (fs : FS) (category data : List Char) (tags : List (List Char))
    (isGlobal : Bool) : Option FS :=
  match fs.root isGlobal with
  | none => none
  | some d =>
    some (fs.withRoot isGlobal
      (some (dirAppendFile d (memoryFileName category) (encodeAppend tags data))))

/-- `retrieve`: empty mapping when the file is absent, otherwise decode
the file content. -/
def retrieve (fs : FS) (category : List Char) (isGlobal : Bool) : Rec :=
  match fs.root isGlobal with
  | none => []
  | some d =>
    match dirGet? d (memoryFileName category) with
    | none => []
    | some c => decode c

/-- Flattening used by `retrieveAll`: concatenate all tag groups'
entries of one category, in mapping order. -/
def flattenRec (r : Rec) : List (List Char) :=
  (r.map (·.2)).flatten

/-- `retrieveAll`: over every directory entry whose name ends in `.txt`,
derive the category by `replace('.txt', '')`, retrieve it, flatten its
tag groups, and assign under the derived category name. -/
def retrieveAll (fs : FS) (isGlobal : Bool) : Rec :=
  match fs.root isGlobal with
  | none => []
  | some d =>
    (d.map (·.1)).foldl
      (fun m name =>
        if endsWithTxt name then
          let category := replaceFirstTxt name
          jsSet m category (flattenRec (retrieve fs category isGlobal))
        else m)
      []

/-- `removeSpecificMemory`: no-op when the file is absent; otherwise
overwrite the file with the `filterOut` rewrite of its content. -/
def removeSpecificMemory (fs : FS) (category memoryContent : List Char)
    (isGlobal : Bool) : FS :=
  match fs.root isGlobal with
  | none => fs
  | some d =>
    match dirGet? d (memoryFileName category) with
    | none => fs
    | some c =>
      fs.withRoot isGlobal
        (some (dirWriteFile d (memoryFileName category) (filterOut c memoryContent)))

/-- `clearMemory`: unlink the category file when present. -/
def clearMemory (fs : FS) (category : List Char) (isGlobal : Bool) : FS :=
  match fs.root isGlobal with
  | none => fs
  | some d =>
    match dirGet? d (memoryFileName category) with
    | none => fs
    | some _ =>
      fs.withRoot isGlobal (some (dirErase d (memoryFileName category)))

/-- `clearAllGlobalOrLocalMemories`: when the root exists, remove it
recursively and recreate it empty; nothing happens when it is absent. -/
def clearAllGlobalOrLocalMemories (fs : FS) (isGlobal : Bool) : FS :=
  match fs.root isGlobal with
  | none => fs
  | some _ => fs.withRoot isGlobal (some [])

/-! ## Auxiliary lemmas about the state layer -/

theorem root_withRoot (fs : FS) (g g' : Bool) (d : Option Dir) :
    (fs.withRoot g d).root g' = if g' = g then d else fs.root g' := by
  cases g <;> cases g' <;> simp [FS.withRoot, FS.root]

theorem dirGet?_cons (m : List Char) (c : List Char) (d : Dir) (n : List Char) :
    dirGet? ((m, c) :: d) n = if m = n then some c else dirGet? d n := by
  by_cases h : m = n <;> simp [dirGet?, List.find?, h]

theorem dirGet?_appendFile_self (d : Dir) (n c : List Char) :
    dirGet? (dirAppendFile d n c) n = some ((dirGet? d n).getD [] ++ c) := by
  induction d with
  | nil => simp [dirAppendFile, dirGet?, List.find?]
  | cons p rest ih =>
    obtain ⟨n', c'⟩ := p
    by_cases h : n' = n
    · subst h; simp [dirAppendFile, dirGet?_cons]
    · simp [dirAppendFile, h, dirGet?_cons, ih]

theorem dirGet?_writeFile_self (d : Dir) (n c : List Char) :
    dirGet? (dirWriteFile d n c) n = some c := by
  induction d with
  | nil => simp [dirWriteFile, dirGet?, List.find?]
  | cons p rest ih =>
    obtain ⟨n', c'⟩ := p
    by_cases h : n' = n
    · subst h; simp [dirWriteFile, dirGet?_cons]
    · simp [dirWriteFile, h, dirGet?_cons, ih]

theorem dirGet?_erase_self (d : Dir) (n : List Char) :
    dirGet? (dirErase d n) n = none := by
  induction d with
  | nil => simp [dirErase, dirGet?, List.find?]
  | cons p rest ih =>
    obtain ⟨n', c'⟩ := p
    by_cases h : n' = n
    · subst h; simpa [dirErase] using ih
    · simpa [dirErase, h, dirGet?_cons] using ih

theorem writeFile_writeFile_self (d : Dir) (n c c' : List Char) :
    dirWriteFile (dirWriteFile d n c) n c' = dirWriteFile d n c' := by
  induction d with
  | nil => simp [dirWriteFile]
  | cons p rest ih =>
    obtain ⟨n', c₀⟩ := p
    by_cases h : n' = n <;> simp [dirWriteFile, h, ih]

theorem retrieve_eq_of_root_eq (fs fs' : FS) (cat : List Char) (g : Bool)
    (h : fs.root g = fs'.root g) : retrieve fs cat g = retrieve fs' cat g := by
  simp [retrieve, h]

theorem jsLookup_cons (k₀ : List Char) (v₀ : List (List Char)) (m : Rec)
    (k : List Char) :
    jsLookup ((k₀, v₀) :: m) k = if k₀ = k then some v₀ else jsLookup m k := by
  by_cases h : k₀ = k <;> simp [jsLookup, List.find?, h]

theorem jsLookup_jsSet_self (m : Rec) (k : List Char) (v : List (List Char)) :
    jsLookup (jsSet m k v) k = some v := by
  induction m with
  | nil => simp [jsSet, jsLookup_cons]
  | cons p rest ih =>
    obtain ⟨k', v'⟩ := p
    by_cases h : k' = k
    · subst h; simp [jsSet, jsLookup_cons]
    · simp [jsSet, h, jsLookup_cons, ih]

theorem jsLookup_jsSet_ne (m : Rec) (k k' : List Char) (v : List (List Char))
    (h : k' ≠ k) : jsLookup (jsSet m k v) k' = jsLookup m k' := by
  induction m with
  | nil => simp [jsSet, jsLookup_cons, jsLookup, List.find?, Ne.symm h]
  | cons p rest ih =>
    obtain ⟨k₀, v₀⟩ := p
    by_cases h0 : k₀ = k
    · subst h0; simp [jsSet, jsLookup_cons, Ne.symm h]
    · by_cases h1 : k₀ = k' <;> simp [jsSet, h0, h1, h, jsLookup_cons, ih]

theorem jsLookup_jsPush_ne (m : Rec) (k k' : List Char) (v : List (List Char))
    (h : k' ≠ k) : jsLookup (jsPush m k v) k' = jsLookup m k' := by
  induction m with
  | nil => simp [jsPush, jsLookup_cons, jsLookup, List.find?, Ne.symm h]
  | cons p rest ih =>
    obtain ⟨k₀, v₀⟩ := p
    by_cases h0 : k₀ = k
    · subst h0; simp [jsPush, jsLookup_cons, Ne.symm h]
    · by_cases h1 : k₀ = k' <;> simp [jsPush, h0, h1, h, jsLookup_cons, ih]

/-! ## Structural lemmas about the splitters and joiners -/

theorem consHead_ne_nil (c : Char) (bs : List (List Char)) : consHead c bs ≠ [] := by
  cases bs <;> simp [consHead]

theorem splitNN_ne_nil (l : List Char) : splitNN l ≠ [] := by
  induction l using splitNN.induct with
  | case1 => simp [splitNN]
  | case2 c => simp [splitNN]
  | case3 c c' rest h ih => simp [splitNN, h]
  | case4 c c' rest h ih =>
    simp only [splitNN, if_neg h]
    exact consHead_ne_nil c _

theorem splitNN_cons₂ (c c' : Char) (r : List Char)
    (h : ¬(c = '\n' ∧ c' = '\n')) :
    splitNN (c :: c' :: r) = consHead c (splitNN (c' :: r)) := by
  simp [splitNN, h]

theorem splitNN_sep (t : List Char) :
    splitNN ('\n' :: '\n' :: t) = [] :: splitNN t := by
  simp [splitNN]

theorem splitNl_cons_ne (c : Char) (l : List Char) (h : ¬c = '\n') :
    splitNl (c :: l) = consHead c (splitNl l) := by
  simp [splitNl, h]

theorem splitNl_of_not_mem (b : List Char) (h : '\n' ∉ b) : splitNl b = [b] := by
  induction b with
  | nil => rfl
  | cons c rest ih =>
    have hc : ¬c = '\n' := fun hh => h (hh ▸ List.mem_cons_self c rest)
    rw [splitNl_cons_ne c rest hc, ih (fun hh => h (List.mem_cons_of_mem c hh))]
    rfl

theorem splitNl_append (a t : List Char) (h : '\n' ∉ a) :
    splitNl (a ++ '\n' :: t) = a :: splitNl t := by
  induction a with
  | nil => simp [splitNl]
  | cons c a' ih =>
    have hc : ¬c = '\n' := fun hh => h (hh ▸ List.mem_cons_self c a')
    rw [List.cons_append, splitNl_cons_ne c _ hc,
      ih (fun hh => h (List.mem_cons_of_mem c hh))]
    rfl

theorem noSep_cons_cons (c c' : Char) (r : List Char) :
    noSep (c :: c' :: r) =
      if c = '\n' ∧ c' = '\n' then false else noSep (c' :: r) := rfl

theorem noSep_cons_of_ne (c : Char) (l : List Char) (h : ¬c = '\n') :
    noSep (c :: l) = noSep l := by
  cases l with
  | nil => rfl
  | cons c' r =>
    rw [noSep_cons_cons, if_neg (fun hh : c = '\n' ∧ c' = '\n' => h hh.1)]

theorem noSep_of_not_mem (b : List Char) (h : '\n' ∉ b) : noSep b = true := by
  induction b with
  | nil => rfl
  | cons c rest ih =>
    have hc : ¬c = '\n' := fun hh => h (hh ▸ List.mem_cons_self c rest)
    rw [noSep_cons_of_ne c rest hc]
    exact ih (fun hh => h (List.mem_cons_of_mem c hh))

theorem noSep_tail (c c' : Char) (r : List Char)
    (h : noSep (c :: c' :: r) = true) : noSep (c' :: r) = true := by
  by_cases hc : c = '\n' ∧ c' = '\n'
  · simp [noSep, hc] at h
  · simpa [noSep, hc] using h

theorem noSep_append_mid (x y : List Char) (hx : '\n' ∉ x) (hy : '\n' ∉ y)
    (hyne : y ≠ []) : noSep (x ++ '\n' :: y) = true := by
  induction x with
  | nil =>
    obtain ⟨c, r, rfl⟩ := List.exists_cons_of_ne_nil hyne
    have hc : ¬c = '\n' := fun hh => hy (hh ▸ List.mem_cons_self c r)
    have h' : ¬('\n' = '\n' ∧ c = '\n') := fun hh => hc hh.2
    rw [List.nil_append, noSep_cons_cons, if_neg h']
    exact noSep_of_not_mem (c :: r) hy
  | cons c x' ih =>
    have hc : ¬c = '\n' := fun hh => hx (hh ▸ List.mem_cons_self c x')
    rw [List.cons_append, noSep_cons_of_ne c _ hc]
    exact ih (fun hh => hx (List.mem_cons_of_mem c hh))

theorem splitNN_of_noSep (b : List Char) (h : noSep b = true) :
    splitNN b = [b] := by
  induction b using splitNN.induct with
  | case1 => rfl
  | case2 c => rfl
  | case3 c c' rest hcond ih => simp [noSep, hcond] at h
  | case4 c c' rest hcond ih =>
    rw [splitNN_cons₂ c c' rest hcond, ih (noSep_tail c c' rest h)]
    rfl

theorem splitNN_block_append (a t : List Char) (ha : noSep a = true)
    (hend : endsNl a = false) :
    splitNN (a ++ '\n' :: '\n' :: t) = a :: splitNN t := by
  induction a using splitNN.induct with
  | case1 => simp [splitNN_sep]
  | case2 c =>
    have hc : ¬c = '\n' := by simpa [endsNl] using hend
    rw [List.singleton_append, splitNN_cons₂ c '\n' _ (fun hh => hc hh.1),
      splitNN_sep]
    rfl
  | case3 c c' rest hcond ih => simp [noSep, hcond] at ha
  | case4 c c' rest hcond ih =>
    have hn : noSep (c' :: rest) = true := noSep_tail c c' rest ha
    have he : endsNl (c' :: rest) = false := by
      simpa [endsNl, List.getLast?_cons_cons] using hend
    rw [List.cons_append, List.cons_append, splitNN_cons₂ c c' _ hcond,
      ← List.cons_append, ih hn he]
    rfl

theorem splitNN_cons_head (c' : Char) (r : List Char) :
    (∃ bs, splitNN (c' :: r) = [] :: bs ∧ c' = '\n') ∨
    (∃ b bs, splitNN (c' :: r) = (c' :: b) :: bs) := by
  cases r with
  | nil => right; exact ⟨[], [], rfl⟩
  | cons c'' r' =>
    by_cases h : c' = '\n' ∧ c'' = '\n'
    · left; exact ⟨splitNN r', by simp [splitNN, h], h.1⟩
    · right
      obtain ⟨b₀, bs₀, hb⟩ := List.exists_cons_of_ne_nil (splitNN_ne_nil (c'' :: r'))
      refine ⟨b₀, bs₀, ?_⟩
      rw [splitNN_cons₂ c' c'' r' h, hb]
      rfl

theorem mem_splitNN_noSep (l : List Char) : ∀ b ∈ splitNN l, noSep b = true := by
  induction l using splitNN.induct with
  | case1 => intro b hb; simp [splitNN] at hb; subst hb; rfl
  | case2 c => intro b hb; simp [splitNN] at hb; subst hb; rfl
  | case3 c c' rest hcond ih =>
    intro b hb
    rw [splitNN, if_pos hcond] at hb
    rcases List.mem_cons.mp hb with h | h
    · subst h; rfl
    · exact ih b h
  | case4 c c' rest hcond ih =>
    intro b hb
    rw [splitNN_cons₂ c c' rest hcond] at hb
    obtain ⟨b₀, bs₀, hshape⟩ := List.exists_cons_of_ne_nil (splitNN_ne_nil (c' :: rest))
    rw [hshape] at hb
    simp only [consHead] at hb
    rcases List.mem_cons.mp hb with h | h
    · subst h
      cases hb₀ : b₀ with
      | nil => rfl
      | cons d b₀' =>
        have hmem : b₀ ∈ splitNN (c' :: rest) := by rw [hshape]; simp
        have hns : noSep b₀ = true := ih b₀ hmem
        have hd : d = c' := by
          rcases splitNN_cons_head c' rest with ⟨bs, hh, _⟩ | ⟨bb, bs, hh⟩
          · rw [hh] at hshape
            cases hshape
            simp_all
          · rw [hh] at hshape
            cases hshape
            simp_all
        subst hd
        have : ¬(c = '\n' ∧ d = '\n') := hcond
        rw [hb₀] at hns
        calc noSep (c :: d :: b₀') = noSep (d :: b₀') := by
              simp [noSep, this]
          _ = true := hns
    · exact ih b (by rw [hshape]; exact List.mem_cons_of_mem b₀ h)

theorem lastOkB_of_cons (a : List Char) (l : List (List Char))
    (h : lastOkB (a :: l) = true) : lastOkB l = true := by
  cases l with
  | nil => rfl
  | cons b bs =>
    simp only [lastOkB, List.isEmpty_cons, Bool.false_or, Bool.and_eq_true] at h
    exact h.2

theorem lastOkB_cons_of (b : List Char) (bs : List (List Char))
    (h1 : endsNl b = false) (h2 : lastOkB bs = true) :
    lastOkB (b :: bs) = true := by
  cases bs with
  | nil => rfl
  | cons b' bs' =>
    simp only [lastOkB, List.isEmpty_cons, Bool.false_or, Bool.and_eq_true]
    exact ⟨by simp [h1], h2⟩

theorem lastOkB_head_false (b b' : List Char) (bs : List (List Char))
    (h : lastOkB (b :: b' :: bs) = true) : endsNl b = false := by
  simp only [lastOkB, List.isEmpty_cons, Bool.false_or, Bool.and_eq_true] at h
  simpa using h.1

theorem lastOkB_sublist : ∀ {bs' bs : List (List Char)}, List.Sublist bs' bs →
    lastOkB bs = true → lastOkB bs' = true := by
  intro bs' bs hsub
  induction hsub with
  | slnil => intro h; exact h
  | cons a hs ih => intro h; exact ih (lastOkB_of_cons a _ h)
  | cons₂ a hs ih =>
    intro h
    rename_i l₁ l₂
    cases l₁ with
    | nil => rfl
    | cons x xs =>
      have hl₂ : l₂ ≠ [] := by
        intro he
        subst he
        have := List.sublist_nil.mp hs
        exact absurd this (by simp)
      have h2 : lastOkB l₂ = true := lastOkB_of_cons a _ h
      have hend : endsNl a = false := by
        obtain ⟨y, ys, he⟩ := List.exists_cons_of_ne_nil hl₂
        subst he
        exact lastOkB_head_false a y ys h
      exact lastOkB_cons_of a (x :: xs) hend (ih h2)

theorem splitNN_lastOk (l : List Char) : lastOkB (splitNN l) = true := by
  induction l using splitNN.induct with
  | case1 => rfl
  | case2 c => rfl
  | case3 c c' rest hcond ih =>
    rw [splitNN, if_pos hcond]
    cases hs : splitNN rest with
    | nil => rfl
    | cons b bs =>
      rw [hs] at ih
      exact lastOkB_cons_of [] (b :: bs) rfl ih
  | case4 c c' rest hcond ih =>
    rw [splitNN_cons₂ c c' rest hcond]
    obtain ⟨b₀, bs₀, hshape⟩ := List.exists_cons_of_ne_nil (splitNN_ne_nil (c' :: rest))
    rw [hshape]
    simp only [consHead]
    cases bs₀ with
    | nil => rfl
    | cons b₁ bs₁ =>
      rw [hshape] at ih
      have h2 : lastOkB (b₁ :: bs₁) = true := lastOkB_of_cons b₀ _ ih
      have hb₀ : endsNl b₀ = false := lastOkB_head_false b₀ b₁ bs₁ ih
      have hend : endsNl (c :: b₀) = false := by
        cases hb : b₀ with
        | nil =>
          have hc : ¬c = '\n' := by
            rcases splitNN_cons_head c' rest with ⟨bs, hh, hnl⟩ | ⟨bb, bs, hh⟩
            · rw [hh] at hshape
              cases hshape
              exact fun hce => hcond ⟨hce, hnl⟩
            · rw [hh] at hshape
              cases hshape
              simp_all
          simpa [endsNl] using hc
        | cons d b₀' =>
          rw [hb] at hb₀
          simpa [endsNl, List.getLast?_cons_cons] using hb₀
      exact lastOkB_cons_of (c :: b₀) (b₁ :: bs₁) hend h2

theorem joinWith_cons₂ (sep t u : List Char) (T : List (List Char)) :
    joinWith sep (t :: u :: T) = t ++ sep ++ joinWith sep (u :: T) := rfl

theorem splitNN_joinWith (bs : List (List Char)) (hne : bs ≠ [])
    (hsep : ∀ b ∈ bs, noSep b = true) (hlast : lastOkB bs = true) :
    splitNN (joinWith ['\n', '\n'] bs) = bs := by
  induction bs with
  | nil => contradiction
  | cons b bs' ih =>
    cases bs' with
    | nil => simpa [joinWith] using splitNN_of_noSep b (hsep b (by simp))
    | cons b₁ bs'' =>
      have hend : endsNl b = false := lastOkB_head_false b b₁ bs'' hlast
      rw [joinWith_cons₂, List.append_assoc]
      show splitNN (b ++ '\n' :: '\n' :: joinWith ['\n', '\n'] (b₁ :: bs'')) =
        b :: b₁ :: bs''
      rw [splitNN_block_append _ _ (hsep b (by simp)) hend,
        ih (by simp) (fun x hx => hsep x (List.mem_cons_of_mem b hx))
          (lastOkB_of_cons b _ hlast)]

theorem filterOut_idem (c s : List Char) (hS : s ≠ []) :
    filterOut (filterOut c s) s = filterOut c s := by
  unfold filterOut
  by_cases hbs : (splitNN c).filter (fun b => !containsSub b s) = []
  · rw [hbs]
    have hp : (!containsSub [] s) = true := by
      simp [containsSub, List.isEmpty_iff, hS]
    simp [joinWith, splitNN, hp]
  · rw [splitNN_joinWith _ hbs
      (fun b hb => mem_splitNN_noSep c b (List.mem_of_mem_filter hb))
      (lastOkB_sublist (List.filter_sublist _) (splitNN_lastOk c))]
    rw [List.filter_eq_self.mpr (fun b hb => (List.mem_filter.mp hb).2)]

theorem withRoot_withRoot (fs : FS) (g : Bool) (d d' : Option Dir) :
    (fs.withRoot g d).withRoot g d' = fs.withRoot g d' := by
  cases g <;> simp [FS.withRoot]

theorem parseBlock_blank (m : Rec) (e : List Char) (h : isBlankL e = true) :
    parseBlock m e = m := by
  simp [parseBlock, h]

theorem parseBlock_tagged (m : Rec) (e : List Char) (h1 : isBlankL e = false)
    (h2 : blockIsTagged e = true) :
    parseBlock m e = jsSet m (blockTagKey e) (blockEntries e) := by
  unfold blockIsTagged blockFirstLine at h2
  rw [List.headD_eq_head?_getD] at h2
  simp [parseBlock, h1, h2, blockTagKey, blockFirstLine, blockEntries]

theorem parseBlock_untagged (m : Rec) (e : List Char) (h1 : isBlankL e = false)
    (h2 : blockIsTagged e = false) :
    parseBlock m e =
      jsPush m untaggedKey ((splitNl e).filter (fun l => !isBlankL l)) := by
  unfold blockIsTagged blockFirstLine at h2
  rw [List.headD_eq_head?_getD] at h2
  simp [parseBlock, h1, h2]

theorem foldl_parseBlock_no_affect (k : List Char) :
    ∀ (post : List (List Char)) (m : Rec),
      (∀ b ∈ post, blockAffects b k = false) →
      jsLookup (post.foldl parseBlock m) k = jsLookup m k := by
  intro post
  induction post with
  | nil => intro m _; rfl
  | cons b rest ih =>
    intro m hall
    have hb := hall b (by simp)
    simp only [List.foldl_cons]
    rw [ih _ (fun x hx => hall x (List.mem_cons_of_mem b hx))]
    cases hblank : isBlankL b with
    | true => rw [parseBlock_blank m b hblank]
    | false =>
      cases htag : blockIsTagged b with
      | true =>
        have hkey : ¬blockTagKey b = k := by
          simpa [blockAffects, hblank, htag] using hb
        rw [parseBlock_tagged m b hblank htag,
          jsLookup_jsSet_ne m (blockTagKey b) k _ (fun hh => hkey hh.symm)]
      | false =>
        have hkey : ¬k = untaggedKey := by
          simpa [blockAffects, hblank, htag] using hb
        rw [parseBlock_untagged m b hblank htag,
          jsLookup_jsPush_ne m untaggedKey k _ hkey]

theorem validTag_ne_nil (t : List Char) (h : validTag t = true) : t ≠ [] := by
  cases t with
  | nil => simp [validTag] at h
  | cons a t' => simp

theorem validTag_not_ws (t : List Char) (h : validTag t = true) :
    ∀ c ∈ t, isWs c = false := by
  intro c hc
  simp only [validTag, Bool.and_eq_true, List.all_eq_true] at h
  simpa using h.2 c hc

theorem dropWhile_ws_eq_self (l : List Char)
    (h : ∀ a, l.head? = some a → isWs a = false) :
    l.dropWhile isWs = l := by
  cases l with
  | nil => rfl
  | cons a l' => rw [List.dropWhile_cons, if_neg (by simp [h a rfl])]

theorem trimL_space (k : List Char)
    (hhead : ∀ a, k.head? = some a → isWs a = false)
    (hlast : ∀ a, k.getLast? = some a → isWs a = false) :
    trimL (' ' :: k) = k := by
  unfold trimL trimStartL
  rw [List.dropWhile_cons, if_pos (by decide),
    dropWhile_ws_eq_self k hhead,
    dropWhile_ws_eq_self k.reverse
      (fun a ha => hlast a (by rwa [List.head?_reverse] at ha)),
    List.reverse_reverse]

theorem head?_joinWith_space (t : List Char) (T : List (List Char))
    (ht : t ≠ []) : (joinWith [' '] (t :: T)).head? = t.head? := by
  cases T with
  | nil => rfl
  | cons u T' =>
    rw [joinWith_cons₂, List.head?_append_of_ne_nil (t ++ [' ']) (by simp),
      List.head?_append_of_ne_nil t ht]

theorem getLast?_joinWith_space (T : List (List Char)) (hne : T ≠ [])
    (h : ∀ t ∈ T, validTag t = true) :
    ∃ c, (joinWith [' '] T).getLast? = some c ∧ isWs c = false := by
  induction T with
  | nil => contradiction
  | cons t T' ih =>
    cases T' with
    | nil =>
      have hv := h t (by simp)
      have htne : t ≠ [] := validTag_ne_nil t hv
      refine ⟨t.getLast htne, ?_, ?_⟩
      · simpa [joinWith] using (List.getLast?_eq_getLast t htne)
      · exact validTag_not_ws t hv _ (List.getLast_mem htne)
    | cons u T'' =>
      obtain ⟨c, hc1, hc2⟩ :=
        ih (by simp) (fun x hx => h x (List.mem_cons_of_mem t hx))
      have hjne : joinWith [' '] (u :: T'') ≠ [] := by
        intro he
        rw [he] at hc1
        simp at hc1
      refine ⟨c, ?_, hc2⟩
      rw [joinWith_cons₂, List.getLast?_append_of_ne_nil (t ++ [' ']) hjne]
      exact hc1

theorem mem_joinWith_space (T : List (List Char)) (a : Char)
    (ha : a ∈ joinWith [' '] T) : a = ' ' ∨ ∃ t ∈ T, a ∈ t := by
  induction T with
  | nil => simp [joinWith] at ha
  | cons t T' ih =>
    cases T' with
    | nil => right; exact ⟨t, by simp, by simpa [joinWith] using ha⟩
    | cons u T'' =>
      rw [joinWith_cons₂] at ha
      rcases List.mem_append.mp ha with h1 | h2
      · rcases List.mem_append.mp h1 with h3 | h4
        · right; exact ⟨t, by simp, h3⟩
        · left; simpa using h4
      · rcases ih h2 with h | ⟨t', ht', hat'⟩
        · left; exact h
        · right; exact ⟨t', List.mem_cons_of_mem t ht', hat'⟩

theorem wsSplit_of_all_non (t : List Char) (h : ∀ c ∈ t, isWs c = false) :
    wsSplit t = [t] := by
  induction t with
  | nil => rfl
  | cons c t' ih =>
    rw [wsSplit, if_neg (by simp [h c (List.mem_cons_self c t')]),
      ih (fun x hx => h x (List.mem_cons_of_mem c hx))]
    rfl

theorem wsSplit_append (t r : List Char) (h : ∀ c ∈ t, isWs c = false) :
    wsSplit (t ++ ' ' :: r) = t :: wsSplit r := by
  induction t with
  | nil => rw [List.nil_append, wsSplit, if_pos (by decide)]
  | cons c t' ih =>
    rw [List.cons_append, wsSplit,
      if_neg (by simp [h c (List.mem_cons_self c t')]),
      ih (fun x hx => h x (List.mem_cons_of_mem c hx))]
    rfl

theorem wsSplit_joinWith (T : List (List Char)) (hne : T ≠ [])
    (h : ∀ t ∈ T, ∀ c ∈ t, isWs c = false) :
    wsSplit (joinWith [' '] T) = T := by
  induction T with
  | nil => contradiction
  | cons t T' ih =>
    cases T' with
    | nil => simpa [joinWith] using wsSplit_of_all_non t (h t (by simp))
    | cons u T'' =>
      rw [joinWith_cons₂, List.append_assoc, List.singleton_append,
        wsSplit_append t _ (h t (by simp)),
        ih (by simp) (fun x hx => h x (List.mem_cons_of_mem t hx))]

theorem jsSplitWsPlus_joinWith (T : List (List Char)) (hne : T ≠ [])
    (h : ∀ t ∈ T, validTag t = true) :
    jsSplitWsPlus (joinWith [' '] T) = T := by
  have hj : joinWith [' '] T ≠ [] := by
    obtain ⟨c, hc1, _⟩ := getLast?_joinWith_space T hne h
    intro he
    rw [he] at hc1
    simp at hc1
  unfold jsSplitWsPlus
  rw [if_neg hj, wsSplit_joinWith T hne (fun t ht => validTag_not_ws t (h t ht))]
  exact List.filter_eq_self.mpr (fun t ht => by
    simpa [List.isEmpty_iff] using validTag_ne_nil t (h t ht))

theorem encodeAppend_tagged (T : List (List Char)) (B : List Char)
    (h : T ≠ []) :
    encodeAppend T B =
      (('#' :: ' ' :: joinWith [' '] T) ++ '\n' :: B) ++ '\n' :: '\n' :: [] := by
  unfold encodeAppend
  rw [if_pos (by cases T with | nil => contradiction | cons t T' => simp)]
  simp

theorem encodeAppend_untagged (B : List Char) :
    encodeAppend [] B = B ++ '\n' :: '\n' :: [] := by
  simp [encodeAppend]

theorem retrieve_after_remember (fs : FS) (cat data : List Char)
    (T : List (List Char)) (g : Bool) (d : Dir)
    (hr : fs.root g = some d) (hf : dirGet? d (memoryFileName cat) = none) :
    retrieve ((remember fs cat data T g).getD fs) cat g =
      decode (encodeAppend T data) := by
  have hrem : (remember fs cat data T g).getD fs =
      fs.withRoot g (some (dirAppendFile d (memoryFileName cat)
        (encodeAppend T data))) := by
    simp [remember, hr]
  rw [hrem]
  have hget : dirGet? (dirAppendFile d (memoryFileName cat)
      (encodeAppend T data)) (memoryFileName cat) =
      some (encodeAppend T data) := by
    rw [dirGet?_appendFile_self, hf]
    rfl
  simp [retrieve, root_withRoot, hget]

theorem decode_single_block (x : List Char) (hns : noSep x = true)
    (hend : endsNl x = false) :
    decode (x ++ '\n' :: '\n' :: []) = parseBlock [] x := by
  unfold decode
  rw [splitNN_block_append x [] hns hend]
  show List.foldl parseBlock [] (x :: [[]]) = parseBlock [] x
  rw [List.foldl_cons, List.foldl_cons, List.foldl_nil, parseBlock_blank _ [] rfl]

theorem endsNl_eq_false_of_not_nl (B : List Char) (hB1 : '\n' ∉ B) :
    endsNl B = false := by
  unfold endsNl
  cases hg : B.getLast? with
  | none => simp
  | some a =>
    have hmem : a ∈ B := List.mem_of_getLast?_eq_some hg
    have ha : a ≠ '\n' := fun he => hB1 (he ▸ hmem)
    simp [ha]

/-! ## Claim theorems -/

/-- C7: on a nonexistent category file, `retrieve` returns the empty
mapping and `removeSpecificMemory` and `clearMemory` leave the
filesystem state unchanged; on a nonexistent area root, `retrieveAll`
returns the empty mapping.  None of these signals an error. -/
theorem c7_absent_is_noop (fs : FS) (cat s : List Char) (g : Bool) :
    (fileContent? fs cat g = none →
      retrieve fs cat g = [] ∧ removeSpecificMemory fs cat s g = fs ∧
      clearMemory fs cat g = fs) ∧
    (fs.root g = none → retrieveAll fs g = []) := by
  constructor
  · intro h
    cases hr : fs.root g with
    | none => simp [retrieve, removeSpecificMemory, clearMemory, hr]
    | some d =>
      simp only [fileContent?, hr] at h
      simp [retrieve, removeSpecificMemory, clearMemory, hr, h]
  · intro h
    simp [retrieveAll, h]

theorem c7_witness :
    (retrieve ⟨some [], none⟩ "c".toList true = [] ∧
      removeSpecificMemory ⟨some [], none⟩ "c".toList "s".toList true =
        ⟨some [], none⟩ ∧
      clearMemory ⟨some [], none⟩ "c".toList true = ⟨some [], none⟩) ∧
    retrieveAll ⟨none, some []⟩ true = [] :=
  ⟨(c7_absent_is_noop ⟨some [], none⟩ "c".toList "s".toList true).1 (by decide),
    (c7_absent_is_noop ⟨none, some []⟩ "c".toList "s".toList true).2 rfl⟩

/-- C8: with the two area roots distinct (separate directories), a
`remember` into one area leaves `retrieve` of any category in the other
area unchanged, in both directions. -/
theorem c8_area_isolation (fs : FS) (cat data x : List Char)
    (tags : List (List Char)) :
    retrieve ((remember fs cat data tags true).getD fs) x false =
      retrieve fs x false ∧
    retrieve ((remember fs cat data tags false).getD fs) x true =
      retrieve fs x true := by
  constructor
  · cases hr : fs.globalRoot with
    | none => simp [remember, FS.root, hr]
    | some d => simp [remember, retrieve, FS.root, FS.withRoot, hr]
  · cases hr : fs.localRoot with
    | none => simp [remember, FS.root, hr]
    | some d => simp [remember, retrieve, FS.root, FS.withRoot, hr]

/-- C4, counterexample: from a starting state whose selected area root
does not exist, `clearAllGlobalOrLocalMemories` does not recreate the
root, so "the area root directory exists afterwards" fails. -/
theorem c4_counterexample :
    rootExists (clearAllGlobalOrLocalMemories ⟨none, some []⟩ true) true =
      false := by decide

/-- C4 (amended): after `clearAllGlobalOrLocalMemories(area)`,
`retrieveAll(area)` is the empty mapping; a previously existing area
root is recreated empty, while an absent root remains absent. -/
theorem c4_amended_clear_all (fs : FS) (g : Bool) :
    retrieveAll (clearAllGlobalOrLocalMemories fs g) g = [] ∧
    (rootExists fs g = true →
      (clearAllGlobalOrLocalMemories fs g).root g = some []) ∧
    (rootExists fs g = false →
      (clearAllGlobalOrLocalMemories fs g).root g = none) := by
  cases hr : fs.root g with
  | none =>
    refine ⟨?_, ?_, ?_⟩ <;>
      simp [clearAllGlobalOrLocalMemories, retrieveAll, rootExists, hr]
  | some d =>
    refine ⟨?_, ?_, ?_⟩ <;>
      simp [clearAllGlobalOrLocalMemories, retrieveAll, rootExists, hr,
        root_withRoot]

theorem c4_witness :
    retrieveAll (clearAllGlobalOrLocalMemories ⟨some [], none⟩ true) true = [] ∧
    (clearAllGlobalOrLocalMemories
        ⟨some [("a.txt".toList, "x\n\n".toList)], none⟩ true).root true =
      some [] ∧
    (clearAllGlobalOrLocalMemories ⟨none, none⟩ true).root true = none :=
  ⟨(c4_amended_clear_all ⟨some [], none⟩ true).1,
    (c4_amended_clear_all ⟨some [("a.txt".toList, "x\n\n".toList)], none⟩
        true).2.1 (by decide),
    (c4_amended_clear_all ⟨none, none⟩ true).2.2 (by decide)⟩

/-- C2, counterexample: remembering `"a"` into category `"c"` and then
`removeSpecificMemory("c", "a")` leaves the category file existing with
empty content, which decodes to the empty mapping — an existing file
representing zero entries. -/
theorem c2_counterexample :
    fileContent?
        (removeSpecificMemory
          ((remember ⟨some [], none⟩ "c".toList "a".toList [] true).getD
            ⟨none, none⟩)
          "c".toList "a".toList true)
        "c".toList true = some [] ∧
    retrieve
        (removeSpecificMemory
          ((remember ⟨some [], none⟩ "c".toList "a".toList [] true).getD
            ⟨none, none⟩)
          "c".toList "a".toList true)
        "c".toList true = [] := by decide

/-- C2 (amended): `clearMemory` deletes the category file outright and
never leaves an empty file, and `removeSpecificMemory` preserves the
existence of the category file — overwriting it in place — so it can
leave an existing file that decodes to the empty mapping (witnessed by
the concrete run in the last conjunct). -/
theorem c2_amended_clear_deletes_remove_keeps :
    (∀ (fs : FS) (cat : List Char) (g : Bool),
      fileContent? (clearMemory fs cat g) cat g = none) ∧
    (∀ (fs : FS) (cat s : List Char) (g : Bool),
      (fileContent? fs cat g).isSome = true →
      (fileContent? (removeSpecificMemory fs cat s g) cat g).isSome = true) ∧
    ((fileContent?
        (removeSpecificMemory
          ((remember ⟨some [], none⟩ "m".toList "b".toList [] true).getD
            ⟨none, none⟩)
          "m".toList "b".toList true)
        "m".toList true).isSome = true ∧
      retrieve
        (removeSpecificMemory
          ((remember ⟨some [], none⟩ "m".toList "b".toList [] true).getD
            ⟨none, none⟩)
          "m".toList "b".toList true)
        "m".toList true = []) := by
  refine ⟨?_, ?_, by decide⟩
  · intro fs cat g
    cases hr : fs.root g with
    | none => simp [clearMemory, fileContent?, hr]
    | some d =>
      cases hf : dirGet? d (memoryFileName cat) with
      | none => simp [clearMemory, fileContent?, hr, hf]
      | some c =>
        simp [clearMemory, fileContent?, hr, hf, root_withRoot,
          dirGet?_erase_self]
  · intro fs cat s g h
    cases hr : fs.root g with
    | none => simp [fileContent?, hr] at h
    | some d =>
      cases hf : dirGet? d (memoryFileName cat) with
      | none => simp [fileContent?, hr, hf] at h
      | some c =>
        simp [removeSpecificMemory, fileContent?, hr, hf, root_withRoot,
          dirGet?_writeFile_self]

/-- C1, counterexample: two blocks tagged `# t` holding `a` and `b`.
The tagged branch of the parser ASSIGNS (`memories[tagKey] = ...`)
instead of appending, so the later block replaces the earlier one: the
mapping holds only `b`, not the entries of every same-key block. -/
theorem c1_counterexample :
    jsLookup (decode "# t\na\n\n# t\nb\n\n".toList) "t".toList =
      some ["b".toList] ∧ "a".toList ∉ ["b".toList] := by decide

/-- C1 (amended): when a file's block list contains two or more tagged
blocks with the same tag-key, Decode does not merge them: each later
same-key tagged block REPLACES the accumulated list, so when no block
affecting that key follows the last of them, the returned mapping holds
exactly the entries of that last tagged block. -/
theorem c1_amended_last_tagged_wins (content k : List Char)
    (pre post : List (List Char)) (b : List Char)
    (hsplit : splitNN content = pre ++ b :: post)
    (_hdup : ∃ b₀ ∈ pre, isBlankL b₀ = false ∧ blockIsTagged b₀ = true ∧
      blockTagKey b₀ = k)
    (hb1 : isBlankL b = false) (hb2 : blockIsTagged b = true)
    (hb3 : blockTagKey b = k)
    (hpost : ∀ b' ∈ post, blockAffects b' k = false) :
    jsLookup (decode content) k = some (blockEntries b) := by
  unfold decode
  rw [hsplit, List.foldl_append, List.foldl_cons,
    foldl_parseBlock_no_affect k post _ hpost,
    parseBlock_tagged _ b hb1 hb2, hb3, jsLookup_jsSet_self]

theorem c1_witness :
    jsLookup (decode "# t\nx\n\n# t\ny\n\n".toList) "t".toList =
      some ["y".toList] := by
  have h := c1_amended_last_tagged_wins "# t\nx\n\n# t\ny\n\n".toList
      "t".toList ["# t\nx".toList] [[]] "# t\ny".toList (by decide)
      ⟨"# t\nx".toList, by decide, by decide, by decide, by decide⟩
      (by decide) (by decide) (by decide)
      (by decide)
  exact h.trans (by decide)

/-- C5, counterexample: `B = "x\ny"` is non-empty and contains no
blank-line sequence, yet after remembering it under tag `t` into a fresh
category the entry list under `"t"` is `["x", "y"]` — the two lines are
separate entries and `B` itself is not in the list. -/
theorem c5_counterexample :
    retrieve ((remember ⟨some [], none⟩ "c".toList "x\ny".toList
        ["t".toList] true).getD ⟨none, none⟩) "c".toList true =
      [("t".toList, ["x".toList, "y".toList])] ∧
    "x\ny".toList ∉ ["x".toList, "y".toList] := by decide

/-- C5 (amended): round-trip for a fresh category file.  When the area
root exists, the category file is absent, the tag list is non-empty with
every tag non-empty and whitespace-free, and the body is a single
non-blank line (no newline), `remember` followed by `retrieve` maps the
space-joined tag list to exactly `[B]`, which contains `B`. -/
theorem c5_amended_roundtrip_tagged (fs : FS) (cat B : List Char)
    (T : List (List Char)) (g : Bool) (d : Dir)
    (hr : fs.root g = some d)
    (hf : dirGet? d (memoryFileName cat) = none)
    (hT : T ≠ []) (hTags : ∀ t ∈ T, validTag t = true)
    (hB1 : '\n' ∉ B) (hB2 : isBlankL B = false) :
    jsLookup (retrieve ((remember fs cat B T g).getD fs) cat g)
      (joinWith [' '] T) = some [B] := by
  rw [retrieve_after_remember fs cat B T g d hr hf, encodeAppend_tagged T B hT]
  have hBne : B ≠ [] := fun he => by subst he; simp [isBlankL] at hB2
  have hknl : '\n' ∉ joinWith [' '] T := by
    intro hmem
    rcases mem_joinWith_space T '\n' hmem with h | ⟨t, ht, hc⟩
    · exact absurd h (by decide)
    · have := validTag_not_ws t (hTags t ht) '\n' hc
      simp [isWs] at this
  have hxnl : '\n' ∉ ('#' :: ' ' :: joinWith [' '] T) := by
    intro hmem
    simp only [List.mem_cons] at hmem
    rcases hmem with h | h | h
    · exact absurd h (by decide)
    · exact absurd h (by decide)
    · exact hknl h
  set x := ('#' :: ' ' :: joinWith [' '] T) ++ '\n' :: B with hx
  have hns : noSep x = true := noSep_append_mid _ _ hxnl hB1 hBne
  have hend : endsNl x = false := by
    unfold endsNl
    rw [hx, List.getLast?_append_of_ne_nil _ (by simp : ('\n' :: B) ≠ [])]
    obtain ⟨bh, bt, hb⟩ := List.exists_cons_of_ne_nil hBne
    rw [hb, List.getLast?_cons_cons, List.getLast?_eq_getLast (bh :: bt) (by simp)]
    have hmem : (bh :: bt).getLast (by simp) ∈ B := by
      rw [hb]
      exact List.getLast_mem (by simp)
    have hne' : (bh :: bt).getLast (by simp) ≠ '\n' := fun he => hB1 (he ▸ hmem)
    simp [hne']
  rw [decode_single_block x hns hend]
  have hlines : splitNl x = ('#' :: ' ' :: joinWith [' '] T) :: [B] := by
    rw [hx, splitNl_append _ _ hxnl, splitNl_of_not_mem B hB1]
  have hsharp : isWs '#' = false := by decide
  have hxblank : isBlankL x = false := by
    rw [hx, List.cons_append]
    simp [isBlankL, hsharp]
  have hxtag : blockIsTagged x = true := by
    unfold blockIsTagged blockFirstLine
    rw [hlines]
    rfl
  rw [parseBlock_tagged [] x hxblank hxtag]
  have hhd : ∀ a, (joinWith [' '] T).head? = some a → isWs a = false := by
    intro a ha
    obtain ⟨t, T', hTeq⟩ := List.exists_cons_of_ne_nil hT
    have htmem : t ∈ T := by rw [hTeq]; exact List.mem_cons_self t T'
    rw [hTeq, head?_joinWith_space t T' (validTag_ne_nil t (hTags t htmem))] at ha
    exact validTag_not_ws t (hTags t htmem) a (List.mem_of_mem_head? ha)
  have hlst : ∀ a, (joinWith [' '] T).getLast? = some a → isWs a = false := by
    intro a ha
    obtain ⟨c, hc1, hc2⟩ := getLast?_joinWith_space T hT hTags
    rw [hc1] at ha
    cases ha
    exact hc2
  have hkey : blockTagKey x = joinWith [' '] T := by
    unfold blockTagKey blockFirstLine
    rw [hlines]
    show joinWith [' '] (jsSplitWsPlus (trimL (' ' :: joinWith [' '] T))) =
      joinWith [' '] T
    rw [trimL_space _ hhd hlst, jsSplitWsPlus_joinWith T hT hTags]
  have hents : blockEntries x = [B] := by
    unfold blockEntries
    rw [hlines]
    simp [hB2]
  rw [hkey, hents, jsLookup_jsSet_self]

theorem c5_witness :
    jsLookup
      (retrieve ((remember ⟨some [], none⟩ "c".toList "hello".toList
          ["t1".toList, "t2".toList] true).getD ⟨some [], none⟩)
        "c".toList true)
      (joinWith [' '] ["t1".toList, "t2".toList]) = some ["hello".toList] :=
  c5_amended_roundtrip_tagged ⟨some [], none⟩ "c".toList "hello".toList
    ["t1".toList, "t2".toList] true [] rfl (by decide) (by decide)
    (by decide) (by decide) (by decide)

/-- C9, counterexample: the body `" "` is non-empty, yet remembering it
untagged into a fresh category yields an empty mapping on retrieve — the
all-whitespace block is skipped, so nothing appears under `"untagged"`. -/
theorem c9_counterexample :
    retrieve ((remember ⟨some [], none⟩ "c".toList " ".toList [] true).getD
      ⟨none, none⟩) "c".toList true = [] := by decide

/-- C9 (amended): untagged round-trip for a fresh category file.  When
the area root exists, the category file is absent, and the body is a
single non-blank newline-free line not starting with `#`, `remember`
with no tags followed by `retrieve` maps `"untagged"` to exactly `[B]`. -/
theorem c9_amended_roundtrip_untagged (fs : FS) (cat B : List Char)
    (g : Bool) (d : Dir)
    (hr : fs.root g = some d)
    (hf : dirGet? d (memoryFileName cat) = none)
    (hB1 : '\n' ∉ B) (hB2 : isBlankL B = false)
    (hB3 : startsWithHash B = false) :
    jsLookup (retrieve ((remember fs cat B [] g).getD fs) cat g)
      untaggedKey = some [B] := by
  rw [retrieve_after_remember fs cat B [] g d hr hf, encodeAppend_untagged]
  have hns : noSep B = true := noSep_of_not_mem B hB1
  have hend : endsNl B = false := endsNl_eq_false_of_not_nl B hB1
  rw [decode_single_block B hns hend]
  have htag : blockIsTagged B = false := by
    unfold blockIsTagged blockFirstLine
    rw [splitNl_of_not_mem B hB1]
    simpa using hB3
  rw [parseBlock_untagged [] B hB2 htag, splitNl_of_not_mem B hB1]
  simp [jsPush, hB2, jsLookup_cons]

theorem c9_witness :
    jsLookup
      (retrieve ((remember ⟨some [], none⟩ "c".toList "note".toList []
          true).getD ⟨some [], none⟩) "c".toList true)
      untaggedKey = some ["note".toList] :=
  c9_amended_roundtrip_untagged ⟨some [], none⟩ "c".toList "note".toList
    true [] rfl (by decide) (by decide) (by decide) (by decide)

/-- C6: on an existing category file, `removeSpecificMemory` overwrites
the file with the blocks of the old content that do not contain the
substring, rejoined with the record separator; blocks free of the
substring all survive (unchanged, by membership) and blocks containing
it are all dropped. -/
theorem c6_remove_specific_filters_blocks (fs : FS) (cat s : List Char)
    (g : Bool) (d : Dir) (c : List Char)
    (hr : fs.root g = some d)
    (hf : dirGet? d (memoryFileName cat) = some c) :
    fileContent? (removeSpecificMemory fs cat s g) cat g =
      some (joinWith ['\n', '\n']
        ((splitNN c).filter (fun b => !containsSub b s))) ∧
    (∀ b ∈ splitNN c, containsSub b s = false →
      b ∈ (splitNN c).filter (fun b => !containsSub b s)) ∧
    (∀ b ∈ splitNN c, containsSub b s = true →
      b ∉ (splitNN c).filter (fun b => !containsSub b s)) := by
  refine ⟨?_, ?_, ?_⟩
  · simp [removeSpecificMemory, fileContent?, hr, hf, root_withRoot,
      dirGet?_writeFile_self, filterOut]
  · intro b hb hbs
    simp [List.mem_filter, hb, hbs]
  · intro b _ hbs
    simp [List.mem_filter, hbs]

theorem c6_witness :
    fileContent?
        (removeSpecificMemory
          ⟨some [("k.txt".toList, "keep\n\ndrop me\n\n".toList)], none⟩
          "k".toList "drop".toList true)
        "k".toList true = some "keep\n\n".toList := by
  have h := c6_remove_specific_filters_blocks
      ⟨some [("k.txt".toList, "keep\n\ndrop me\n\n".toList)], none⟩
      "k".toList "drop".toList true
      [("k.txt".toList, "keep\n\ndrop me\n\n".toList)]
      "keep\n\ndrop me\n\n".toList rfl (by decide)
  rw [h.1]
  decide

/-- C3, counterexample: a file named `a.txtb.txt` (which ends in
`.txt`) gets its category derived by removing the FIRST occurrence of
`.txt`, yielding key `ab.txt` rather than the claimed `a.txtb`; the
looked-up category file `ab.txt.txt` does not exist, so the value is
empty rather than the file's entries. -/
theorem c3_counterexample :
    retrieveAll ⟨some [("a.txtb.txt".toList, "x\n\n".toList)], none⟩ true =
      [("ab.txt".toList, [])] ∧
    jsLookup
      (retrieveAll ⟨some [("a.txtb.txt".toList, "x\n\n".toList)], none⟩ true)
      "a.txtb".toList = none := by decide

theorem foldl_retrieveAll_step_keeps (V : List Char → List (List Char)) :
    ∀ (names : List (List Char)) (m : Rec) (k : List Char),
      jsLookup m k = some (V k) →
      jsLookup
        (names.foldl
          (fun m n =>
            if endsWithTxt n then jsSet m (replaceFirstTxt n) (V (replaceFirstTxt n))
            else m)
          m) k = some (V k) := by
  intro names
  induction names with
  | nil => intro m k h; simpa using h
  | cons n rest ih =>
    intro m k h
    simp only [List.foldl_cons]
    by_cases ht : endsWithTxt n
    · by_cases hk : replaceFirstTxt n = k
      · exact ih _ k (by rw [ht, if_pos rfl, hk, jsLookup_jsSet_self])
      · exact ih _ k (by rw [ht, if_pos rfl, jsLookup_jsSet_ne _ _ _ _
          (fun hh => hk hh.symm), h])
    · exact ih _ k (by simp [ht, h])

theorem foldl_retrieveAll_step_mem (V : List Char → List (List Char)) :
    ∀ (names : List (List Char)) (m : Rec) (name : List Char),
      name ∈ names → endsWithTxt name = true →
      jsLookup
        (names.foldl
          (fun m n =>
            if endsWithTxt n then jsSet m (replaceFirstTxt n) (V (replaceFirstTxt n))
            else m)
          m) (replaceFirstTxt name) = some (V (replaceFirstTxt name)) := by
  intro names
  induction names with
  | nil => intro m name h; simp at h
  | cons n rest ih =>
    intro m name hmem ht
    simp only [List.foldl_cons]
    rcases List.mem_cons.mp hmem with h | h
    · subst h
      exact foldl_retrieveAll_step_keeps V rest _ _
        (by rw [ht, if_pos rfl, jsLookup_jsSet_self])
    · exact ih _ name h ht

/-- C3 (amended): for every area root, `retrieveAll` maps, for each
directory entry whose name ends in `.txt`, the key obtained by removing
the FIRST occurrence of `.txt` from the name (this equals stripping the
final extension whenever that is the only occurrence) to the flattening
of `retrieve` of that derived category — the grouping being discarded;
an absent root yields the empty mapping. -/
theorem c3_amended_retrieveAll_keys (fs : FS) (g : Bool) :
    (fs.root g = none → retrieveAll fs g = []) ∧
    (∀ d : Dir, fs.root g = some d →
      ∀ name ∈ d.map (·.1), endsWithTxt name = true →
        jsLookup (retrieveAll fs g) (replaceFirstTxt name) =
          some (flattenRec (retrieve fs (replaceFirstTxt name) g))) := by
  constructor
  · intro h; simp [retrieveAll, h]
  · intro d hr name hmem ht
    have h := foldl_retrieveAll_step_mem
      (fun k => flattenRec (retrieve fs k g)) (d.map (·.1)) [] name hmem ht
    simpa [retrieveAll, hr] using h

theorem c3_witness :
    jsLookup
      (retrieveAll ⟨some [("dev.txt".toList, "# s\na\n\nb\n\n".toList)], none⟩
        true) "dev".toList =
      some (flattenRec
        (retrieve ⟨some [("dev.txt".toList, "# s\na\n\nb\n\n".toList)], none⟩
          "dev".toList true)) := by
  have h := (c3_amended_retrieveAll_keys
      ⟨some [("dev.txt".toList, "# s\na\n\nb\n\n".toList)], none⟩ true).2
      [("dev.txt".toList, "# s\na\n\nb\n\n".toList)] rfl
      "dev.txt".toList (by decide) (by decide)
  simpa using h

/-- C10: on an existing category file with a non-empty substring,
running `removeSpecificMemory` a second time with the same substring
leaves the state produced by the first run unchanged: the filter-rewrite
of the file content is idempotent. -/
theorem c10_remove_specific_idempotent (fs : FS) (cat s : List Char)
    (g : Bool) (c : List Char)
    (hex : fileContent? fs cat g = some c) (hS : s ≠ []) :
    removeSpecificMemory (removeSpecificMemory fs cat s g) cat s g =
      removeSpecificMemory fs cat s g := by
  cases hr : fs.root g with
  | none => simp [fileContent?, hr] at hex
  | some d =>
    simp only [fileContent?, hr] at hex
    have e1 : removeSpecificMemory fs cat s g =
        fs.withRoot g
          (some (dirWriteFile d (memoryFileName cat) (filterOut c s))) := by
      simp [removeSpecificMemory, hr, hex]
    rw [e1]
    simp [removeSpecificMemory, root_withRoot, dirGet?_writeFile_self,
      writeFile_writeFile_self, withRoot_withRoot, filterOut_idem c s hS]

theorem c10_witness :
    removeSpecificMemory
        (removeSpecificMemory
          ⟨some [("c.txt".toList, "aa\n\nbb\n\n".toList)], none⟩
          "c".toList "a".toList true)
        "c".toList "a".toList true =
      removeSpecificMemory
        ⟨some [("c.txt".toList, "aa\n\nbb\n\n".toList)], none⟩
        "c".toList "a".toList true :=
  c10_remove_specific_idempotent
    ⟨some [("c.txt".toList, "aa\n\nbb\n\n".toList)], none⟩
    "c".toList "a".toList true "aa\n\nbb\n\n".toList (by decide) (by decide)

theorem c2_witness :
    fileContent?
        (clearMemory ⟨some [("x.txt".toList, "b\n\n".toList)], none⟩
          "x".toList true)
        "x".toList true = none ∧
    (fileContent?
        (removeSpecificMemory ⟨some [("x.txt".toList, "b\n\n".toList)], none⟩
          "x".toList "q".toList true)
        "x".toList true).isSome = true :=
  ⟨c2_amended_clear_deletes_remove_keeps.1
      ⟨some [("x.txt".toList, "b\n\n".toList)], none⟩ "x".toList true,
    c2_amended_clear_deletes_remove_keeps.2.1
      ⟨some [("x.txt".toList, "b\n\n".toList)], none⟩ "x".toList "q".toList
      true (by decide)⟩

end MemSpec
